import Mathlib

/-!
Verification of the deep-configs-merge repository: a JSON deep-merge engine
with change counting (`deepMerge`, `deepEqual`, `isPlainObject`, `countKeys`)
and a multi-document composition driver (`mergeConfigs`).

JSON documents are modelled as a tagged value type `JVal`; a JavaScript
object is an insertion-ordered association list with (for well-formed
documents) pairwise-distinct keys.  JSON numbers are modelled as integers:
no claim in scope depends on floating-point semantics.
-/

namespace DCM

/-- A JSON-compatible value: null, boolean, number, string, ordered
sequence, or key-value mapping (insertion-ordered field list). -/
inductive JVal where
  | null : JVal
  | bool : Bool → JVal
  | num : Int → JVal
  | str : String → JVal
  | arr : List JVal → JVal
  | obj : List (String × JVal) → JVal

/-- A JavaScript object: an insertion-ordered list of string-keyed fields. -/
abbrev Obj := List (String × JVal)

/-- `obj[k]` on a JS object: the value at key `k`, `none` when absent
(JS `undefined`).  For well-formed objects keys are distinct, so taking the
first matching field is exact. -/
def getKey (fs : Obj) (k : String) : Option JVal :=
  (fs.find? (fun p => p.1 == k)).map (fun p => p.2)

/-- `obj[k] = v` on a JS object: updates the value in place when the key is
present (keeping its position), otherwise appends the field at the end. -/
def setKey (fs : Obj) (k : String) (v : JVal) : Obj :=
  match fs with
  | [] => [(k, v)]
  | (k', v') :: rest =>
      if k' == k then (k', v) :: rest else (k', v') :: setKey rest k v

/-- `isPlainObject` (both source files, same body): true exactly on plain
key-value mappings — not null, not an array, not any other object kind.
In the tagged-value model the runtime type test becomes a tag test. -/
def isPlainObject : JVal → Bool
  | .obj _ => true
  | _ => false

/-- `isPlainObject(baseVal)` where `baseVal` may be JS `undefined`
(absent key): `undefined` is not a plain object. -/
def isPlainObjectU : Option JVal → Bool
  | some v => isPlainObject v
  | none => false

/-- `countKeys` (stats file, lines 16-27): counts every own key of an
object, recursing into values that are plain objects. -/
def countKeys : Obj → Nat
  | [] => 0
  | (_, v) :: rest =>
      (1 + (match v with
            | .obj fs => countKeys fs
            | _ => 0)) + countKeys rest
termination_by fs => sizeOf fs
decreasing_by all_goals simp_wf <;> omega


mutual

/-- `deepEqual` (stats file, lines 35-54).  The JS code first tests `===`
(which on primitives is value equality and on acyclic structures is
subsumed by the structural branches), returns false when exactly one side
is null or the runtime types differ, compares arrays by length and
element-wise order-sensitive recursion, and compares plain objects by key
count plus per-key recursion over the first object's keys (a key missing
from the second object compares against `undefined` and yields false). -/
def deepEqual : JVal → JVal → Bool
  | .null, .null => true
  | .bool a, .bool b => a == b
  | .num a, .num b => a == b
  | .str a, .str b => a == b
  | .arr xs, .arr ys => deepEqualList xs ys
  | .obj f1, .obj f2 => f1.length == f2.length && deepEqualAt f2 f1
  | _, _ => false
termination_by a _ => sizeOf a
decreasing_by all_goals simp_wf

/-- Array branch of `deepEqual`: the JS length guard plus the indexed
`every` loop, fused into simultaneous list recursion. -/
def deepEqualList : List JVal → List JVal → Bool
  | [], [] => true
  | x :: xs, y :: ys => deepEqual x y && deepEqualList xs ys
  | _, _ => false
termination_by xs _ => sizeOf xs
decreasing_by all_goals simp_wf <;> omega

/-- Object branch of `deepEqual`: `keys1.every(key => deepEqual(val1[key],
val2[key]))` — iterate the first object's fields, looking each key up in
the second object; an absent key (JS `undefined`) yields false. -/
def deepEqualAt (f2 : Obj) : Obj → Bool
  | [] => true
  | (k, v) :: rest =>
      (match getKey f2 k with
       | some w => deepEqual v w
       | none => false) && deepEqualAt f2 rest
termination_by fs => sizeOf fs
decreasing_by all_goals simp_wf <;> omega

end

/-- `deepEqual(baseVal, overrideVal)` where `baseVal` may be JS
`undefined` (absent key): `undefined` is deep-equal to no JSON value
(the `typeof` test in the source fails, or the null guard fires). -/
def deepEqualU : Option JVal → JVal → Bool
  | some b, v => deepEqual b v
  | none, _ => false

mutual

/-- `deepMerge` (stats file, lines 64-86): result starts as a shallow copy
of the base; each override key is processed in insertion order by
`deepMergeGo`, which threads the mutable `result` and `mergeCount`. -/
def deepMerge (baseObj overrideObj : Obj) : Obj × Nat :=
  deepMergeGo baseObj overrideObj baseObj 0
termination_by sizeOf overrideObj + 1
decreasing_by all_goals simp_wf

/-- Loop body of the counting `deepMerge` (`Object.keys(overrideObj)
.forEach`): when both the override value and the base value are plain
objects, recurse and add the nested count; otherwise the override value
replaces the base value, counting one change exactly when the two values
are not deep-equal. -/
def deepMergeGo (baseObj : Obj) : Obj → Obj → Nat → Obj × Nat
  | [], res, cnt => (res, cnt)
  | (k, oV) :: rest, res, cnt =>
      match oV, getKey baseObj k with
      | .obj of, some (.obj bf) =>
          deepMergeGo baseObj rest
            (setKey res k (.obj (deepMerge bf of).1))
            (cnt + (deepMerge bf of).2)
      | _, _ =>
          deepMergeGo baseObj rest (setKey res k oV)
            (if deepEqualU (getKey baseObj k) oV then cnt else cnt + 1)
termination_by fs _ _ => sizeOf fs
decreasing_by all_goals simp_wf <;> omega

end

mutual

/-- `deepMerge` of the non-counting source file (lines 15-30): identical
merge logic without the change counter. -/
def deepMergeNC (baseObj overrideObj : Obj) : Obj :=
  deepMergeGoNC baseObj overrideObj baseObj
termination_by sizeOf overrideObj + 1
decreasing_by all_goals simp_wf

/-- Loop body of the non-counting `deepMerge`. -/
def deepMergeGoNC (baseObj : Obj) : Obj → Obj → Obj
  | [], res => res
  | (k, oV) :: rest, res =>
      match oV, getKey baseObj k with
      | .obj of, some (.obj bf) =>
          deepMergeGoNC baseObj rest (setKey res k (.obj (deepMergeNC bf of)))
      | _, _ =>
          deepMergeGoNC baseObj rest (setKey res k oV)
termination_by fs _ => sizeOf fs
decreasing_by all_goals simp_wf <;> omega

end

/-- The change contributed by one override field `(k, oV)` against base
`b`, read off the loop body of `deepMerge`: the nested count when both
sides are plain objects, otherwise one exactly when the values are not
deep-equal. -/
def contrib (b : Obj) (p : String × JVal) : Nat :=
  match p.2, getKey b p.1 with
  | .obj of, some (.obj bf) => (deepMerge bf of).2
  | _, _ => if deepEqualU (getKey b p.1) p.2 then 0 else 1

/-- The merged value at an override field `(k, oV)` against base `b`, read
off the loop body of `deepMerge`: the nested merge when both sides are
plain objects, otherwise the override value wholesale. -/
def mergedVal (b : Obj) (k : String) (oV : JVal) : JVal :=
  match oV, getKey b k with
  | .obj of, some (.obj bf) => .obj (deepMerge bf of).1
  | _, _ => oV

mutual

/-- Well-formedness of a JSON value: every object in the tree has
pairwise-distinct keys (as every parsed JSON document does). -/
def wfVal : JVal → Bool
  | .null => true
  | .bool _ => true
  | .num _ => true
  | .str _ => true
  | .arr xs => wfList xs
  | .obj fs => wfFields fs
termination_by v => sizeOf v
decreasing_by all_goals simp_wf

/-- Well-formedness of a list of array elements. -/
def wfList : List JVal → Bool
  | [] => true
  | x :: xs => wfVal x && wfList xs
termination_by xs => sizeOf xs
decreasing_by all_goals simp_wf <;> omega

/-- Well-formedness of an object's field list: the head key does not recur
in the tail, the head value is well-formed, and the tail is well-formed. -/
def wfFields : Obj → Bool
  | [] => true
  | (k, v) :: rest => rest.all (fun p => p.1 ≠ k) && wfVal v && wfFields rest
termination_by fs => sizeOf fs
decreasing_by all_goals simp_wf <;> omega

end


/-- The merged value at an override field for the non-counting `deepMerge`,
read off its loop body. -/
def mergedValNC (b : Obj) (k : String) (oV : JVal) : JVal :=
  match oV, getKey b k with
  | .obj of, some (.obj bf) => .obj (deepMergeNC bf of)
  | _, _ => oV

/-- The JSON kind of a value: null, boolean, number, string, ordered
sequence, or record.  Used to state that `deepEqual` never equates values
of differing kind. -/
inductive Kind where
  | knull : Kind
  | kbool : Kind
  | knum : Kind
  | kstr : Kind
  | kseq : Kind
  | krec : Kind
deriving DecidableEq

/-- The kind of a JSON value. -/
def kindOf : JVal → Kind
  | .null => .knull
  | .bool _ => .kbool
  | .num _ => .knum
  | .str _ => .kstr
  | .arr _ => .kseq
  | .obj _ => .krec

/-- Observable outcome of a `mergeConfigs` run: the returned document (or
the thrown error message), the sources whose contents were read, in order,
and the output files written with their documents. -/
structure MergeOutcome where
  result : Except String Obj
  reads : List String
  writes : List (String × Obj)

/-- The override loop of `mergeConfigs` (stats file, lines 128-146),
projected to its observable behaviour.  Each override source is a pair of
its path and the outcome of `JSON.parse` on its content (per the spec's
data model a Document is a key-value mapping, so a successful parse yields
an `Obj`).  Sources are read one at a time; a parse failure raises
`Invalid JSON in override config (path): message` immediately, so later
sources are never read and no merge result is produced.  The returned
trace collects the paths read and, on success, the merged document with
the per-override change counts. -/
def mergeLoop (merged : Obj) (stats : List (String × Nat)) :
    List (String × Except String Obj) →
      Except String (Obj × List (String × Nat)) × List String
  | [] => (.ok (merged, stats), [])
  | (p, parsed) :: rest =>
      match parsed with
      | .error e =>
          (.error ("Invalid JSON in override config (" ++ p ++ "): " ++ e), [p])
      | .ok o =>
          let mr := deepMerge merged o
          let next := mergeLoop mr.1 (stats ++ [(p, mr.2)]) rest
          (next.1, p :: next.2)

/-- `mergeConfigs` (stats file, lines 97-173) as a pure function of the
base source, the override sources and the options, returning the
observable outcome.  File contents are represented by their `JSON.parse`
outcome; the outer try/catch wraps any raised message in
`mergeConfigs failed: ...`; the output file is written only on overall
success (and only when the `write` option is set). -/
def mergeConfigs (basePath : String) (baseParsed : Except String Obj)
    (overrides : List (String × Except String Obj))
    (write : Bool) (outputPath : String) : MergeOutcome :=
  match baseParsed with
  | .error e =>
      { result := .error
          ("mergeConfigs failed: Invalid JSON in base config (" ++
            basePath ++ "): " ++ e)
        reads := [basePath]
        writes := [] }
  | .ok baseObj =>
      match mergeLoop baseObj [] overrides with
      | (.error e, rds) =>
          { result := .error ("mergeConfigs failed: " ++ e)
            reads := basePath :: rds
            writes := [] }
      | (.ok (merged, _stats), rds) =>
          { result := .ok merged
            reads := basePath :: rds
            writes := if write then [(outputPath, merged)] else [] }

/-! ### Basic lemmas about object access and update -/

theorem getKey_cons (k' : String) (v' : JVal) (rest : Obj) (k : String) :
    getKey ((k', v') :: rest) k = if k' = k then some v' else getKey rest k := by
  by_cases h : k' = k <;> simp [getKey, List.find?_cons, h]

theorem getKey_setKey_self (fs : Obj) (k : String) (v : JVal) :
    getKey (setKey fs k v) k = some v := by
  induction fs with
  | nil => simp [setKey, getKey_cons]
  | cons p rest ih =>
    obtain ⟨k', v'⟩ := p
    by_cases h : k' = k <;> simp [setKey, h, getKey_cons, ih]

theorem getKey_setKey_ne (fs : Obj) (k k' : String) (v : JVal) (h : k' ≠ k) :
    getKey (setKey fs k v) k' = getKey fs k' := by
  have h2 : k ≠ k' := fun hh => h hh.symm
  induction fs with
  | nil => simp [setKey, getKey_cons, getKey, h2]
  | cons p rest ih =>
    obtain ⟨k0, v0⟩ := p
    by_cases h0 : k0 = k <;> by_cases h1 : k0 = k' <;>
      simp_all [setKey, getKey_cons, ih]

theorem setKey_of_getKey_some (fs : Obj) (k : String) (v : JVal)
    (h : getKey fs k = some v) : setKey fs k v = fs := by
  induction fs with
  | nil => simp [getKey] at h
  | cons p rest ih =>
    obtain ⟨k', v'⟩ := p
    by_cases h0 : k' = k
    · rw [getKey_cons] at h
      simp [h0] at h
      simp [setKey, h0, h]
    · rw [getKey_cons] at h
      simp [h0] at h
      simp [setKey, h0, ih h]

theorem setKey_of_getKey_none (fs : Obj) (k : String) (v : JVal)
    (h : getKey fs k = none) : setKey fs k v = fs ++ [(k, v)] := by
  induction fs with
  | nil => simp [setKey]
  | cons p rest ih =>
    obtain ⟨k', v'⟩ := p
    rw [getKey_cons] at h
    by_cases h0 : k' = k
    · simp [h0] at h
    · simp [h0] at h
      simp [setKey, h0, ih h]

theorem getKey_isSome_iff (fs : Obj) (k : String) :
    (getKey fs k).isSome ↔ k ∈ fs.map Prod.fst := by
  induction fs with
  | nil => simp [getKey]
  | cons p rest ih =>
    obtain ⟨k', v'⟩ := p
    rw [List.map_cons, List.mem_cons, getKey_cons]
    by_cases h : k' = k
    · simp [h]
    · have h2 : ¬ (k = k') := fun hh => h hh.symm
      simp [h, h2, ih]

theorem getKey_eq_none_iff (fs : Obj) (k : String) :
    getKey fs k = none ↔ k ∉ fs.map Prod.fst := by
  rw [← getKey_isSome_iff, Option.isSome_iff_exists]
  cases getKey fs k <;> simp

theorem mem_of_getKey_eq_some (fs : Obj) (k : String) (v : JVal)
    (h : getKey fs k = some v) : (k, v) ∈ fs := by
  induction fs with
  | nil => simp [getKey] at h
  | cons p rest ih =>
    obtain ⟨k', v'⟩ := p
    rw [getKey_cons] at h
    by_cases h0 : k' = k
    · simp [h0] at h
      simp [h0, h]
    · simp [h0] at h
      simp [ih h]

theorem getKey_eq_some_of_mem_nodup (fs : Obj) (k : String) (v : JVal)
    (hnd : (fs.map Prod.fst).Nodup) (hmem : (k, v) ∈ fs) :
    getKey fs k = some v := by
  induction fs with
  | nil => simp at hmem
  | cons p rest ih =>
    obtain ⟨k', v'⟩ := p
    simp only [List.map_cons, List.nodup_cons] at hnd
    rcases List.mem_cons.1 hmem with h | h
    · rw [Prod.mk.injEq] at h
      obtain ⟨rfl, rfl⟩ := h
      simp [getKey_cons]
    · have hk : k' ≠ k := by
        intro he
        exact hnd.1 (List.mem_map.2 ⟨(k, v), h, he.symm⟩)
      rw [getKey_cons]
      simp [hk, ih hnd.2 h]

/-! ### Well-formedness lemmas -/

theorem wfFields_cons_iff (k : String) (v : JVal) (rest : Obj) :
    wfFields ((k, v) :: rest) = true ↔
      (∀ p ∈ rest, p.1 ≠ k) ∧ wfVal v = true ∧ wfFields rest = true := by
  simp [wfFields]
  tauto

theorem wfFields_nodup (fs : Obj) (h : wfFields fs = true) :
    (fs.map Prod.fst).Nodup := by
  induction fs with
  | nil => simp
  | cons p rest ih =>
    obtain ⟨k, v⟩ := p
    rw [wfFields_cons_iff] at h
    simp only [List.map_cons, List.nodup_cons]
    refine ⟨fun hk => ?_, ih h.2.2⟩
    obtain ⟨q, hq, hq1⟩ := List.mem_map.1 hk
    exact h.1 q hq hq1

theorem wfFields_value (fs : Obj) (k : String) (v : JVal)
    (h : wfFields fs = true) (hmem : (k, v) ∈ fs) : wfVal v = true := by
  induction fs with
  | nil => simp at hmem
  | cons p rest ih =>
    obtain ⟨k', v'⟩ := p
    rw [wfFields_cons_iff] at h
    rcases List.mem_cons.1 hmem with hh | hh
    · cases hh
      exact h.2.1
    · exact ih h.2.2 hh

theorem wfFields_getKey (fs : Obj) (k : String) (v : JVal)
    (h : wfFields fs = true) (hget : getKey fs k = some v) : wfVal v = true :=
  wfFields_value fs k v h (mem_of_getKey_eq_some fs k v hget)

theorem wfList_mem (xs : List JVal) (x : JVal)
    (h : wfList xs = true) (hmem : x ∈ xs) : wfVal x = true := by
  induction xs with
  | nil => simp at hmem
  | cons y ys ih =>
    simp only [wfList, Bool.and_eq_true] at h
    rcases List.mem_cons.1 hmem with rfl | hh
    · exact h.1
    · exact ih h.2 hh


/-! ### Characterization of the merge loop -/

theorem ite_cnt (c : Bool) (cnt : Nat) :
    (if c = true then cnt else cnt + 1) = cnt + (if c = true then 0 else 1) := by
  cases c <;> simp

theorem keys_setKey (fs : Obj) (k : String) (v : JVal) :
    (setKey fs k v).map Prod.fst =
      if (getKey fs k).isSome then fs.map Prod.fst
      else fs.map Prod.fst ++ [k] := by
  induction fs with
  | nil => simp [setKey, getKey]
  | cons p rest ih =>
    obtain ⟨k0, v0⟩ := p
    by_cases h : k0 = k
    · simp [setKey, h, getKey_cons]
    · simp only [setKey, beq_iff_eq, h, if_false, List.map_cons, ih,
        getKey_cons]
      split <;> simp

theorem deepMergeGo_nil (b res : Obj) (cnt : Nat) :
    deepMergeGo b [] res cnt = (res, cnt) := by
  simp [deepMergeGo]

theorem deepMergeGo_cons (b : Obj) (k : String) (oV : JVal) (rest res : Obj)
    (cnt : Nat) :
    deepMergeGo b ((k, oV) :: rest) res cnt =
      deepMergeGo b rest (setKey res k (mergedVal b k oV))
        (cnt + contrib b (k, oV)) := by
  by_cases hcase : ∃ of bf, oV = JVal.obj of ∧ getKey b k = some (JVal.obj bf)
  · obtain ⟨of, bf, rfl, hb⟩ := hcase
    rw [deepMergeGo.eq_2 b res cnt k rest of bf hb]
    simp [mergedVal, contrib, hb]
  · have hcond : ∀ of bf, oV = JVal.obj of →
        getKey b k = some (JVal.obj bf) → False :=
      fun of bf h1 h2 => hcase ⟨of, bf, h1, h2⟩
    rw [deepMergeGo.eq_3 b res cnt k rest oV hcond]
    have hmv : mergedVal b k oV = oV := by
      unfold mergedVal
      split
      · rename_i heq
        exact (hcond _ _ rfl heq).elim
      · rfl
    have hcontrib : contrib b (k, oV) =
        if deepEqualU (getKey b k) oV = true then 0 else 1 := by
      unfold contrib
      split
      · rename_i hov heq
        exact (hcond _ _ hov heq).elim
      · rfl
    rw [hmv, hcontrib, ite_cnt]

theorem deepMergeGo_cnt (b : Obj) (fields res : Obj) (cnt : Nat) :
    (deepMergeGo b fields res cnt).2 = cnt + (fields.map (contrib b)).sum := by
  induction fields generalizing res cnt with
  | nil => simp [deepMergeGo_nil]
  | cons p rest ih =>
    obtain ⟨k, oV⟩ := p
    rw [deepMergeGo_cons, ih]
    simp only [List.map_cons, List.sum_cons]
    omega

theorem deepMergeGo_get_notin (b : Obj) (fields res : Obj) (cnt : Nat)
    (k : String) (h : k ∉ fields.map Prod.fst) :
    getKey (deepMergeGo b fields res cnt).1 k = getKey res k := by
  induction fields generalizing res cnt with
  | nil => simp [deepMergeGo_nil]
  | cons p rest ih =>
    obtain ⟨k0, oV⟩ := p
    rw [deepMergeGo_cons]
    simp only [List.map_cons, List.mem_cons] at h
    push_neg at h
    rw [ih _ _ h.2, getKey_setKey_ne _ _ _ _ h.1]

theorem deepMergeGo_get_mem (b : Obj) (fields res : Obj) (cnt : Nat)
    (k : String) (oV : JVal) (hnd : (fields.map Prod.fst).Nodup)
    (hmem : (k, oV) ∈ fields) :
    getKey (deepMergeGo b fields res cnt).1 k = some (mergedVal b k oV) := by
  induction fields generalizing res cnt with
  | nil => simp at hmem
  | cons p rest ih =>
    obtain ⟨k0, oV0⟩ := p
    rw [deepMergeGo_cons]
    simp only [List.map_cons, List.nodup_cons] at hnd
    rcases List.mem_cons.1 hmem with h | h
    · rw [Prod.mk.injEq] at h
      obtain ⟨rfl, rfl⟩ := h
      rw [deepMergeGo_get_notin _ _ _ _ _ hnd.1, getKey_setKey_self]
    · exact ih _ _ hnd.2 h

theorem deepMergeGo_keys (b : Obj) (fields res : Obj) (cnt : Nat)
    (hnd : (fields.map Prod.fst).Nodup) :
    (deepMergeGo b fields res cnt).1.map Prod.fst =
      res.map Prod.fst ++
        (fields.map Prod.fst).filter (fun k => !(getKey res k).isSome) := by
  induction fields generalizing res cnt with
  | nil => simp [deepMergeGo_nil]
  | cons p rest ih =>
    obtain ⟨k, oV⟩ := p
    rw [deepMergeGo_cons]
    simp only [List.map_cons, List.nodup_cons] at hnd
    rw [ih _ _ hnd.2]
    rw [keys_setKey]
    have hcongr : ∀ k' ∈ rest.map Prod.fst,
        (!(getKey (setKey res k (mergedVal b k oV)) k').isSome) =
          (!(getKey res k').isSome) := by
      intro k' hk'
      have hne : k' ≠ k := by
        intro he
        exact hnd.1 (he ▸ hk')
      rw [getKey_setKey_ne _ _ _ _ hne]
    rw [List.filter_congr hcongr]
    simp only [List.map_cons, List.filter_cons]
    cases hg : (getKey res k).isSome <;> simp [hg]

theorem deepMergeGo_id (b : Obj) (fields res : Obj) (cnt : Nat)
    (h : ∀ p ∈ fields, getKey res p.1 = some (mergedVal b p.1 p.2)) :
    (deepMergeGo b fields res cnt).1 = res := by
  induction fields generalizing res cnt with
  | nil => simp [deepMergeGo_nil]
  | cons p rest ih =>
    obtain ⟨k, oV⟩ := p
    rw [deepMergeGo_cons]
    rw [setKey_of_getKey_some _ _ _ (h (k, oV) (List.mem_cons_self _ _))]
    exact ih _ _ (fun q hq => h q (List.mem_cons_of_mem _ hq))

theorem deepMerge_cnt (b o : Obj) :
    (deepMerge b o).2 = (o.map (contrib b)).sum := by
  rw [deepMerge]
  simp [deepMergeGo_cnt]

theorem deepMerge_get_some (b o : Obj) (k : String) (oV : JVal)
    (hnd : (o.map Prod.fst).Nodup) (hget : getKey o k = some oV) :
    getKey (deepMerge b o).1 k = some (mergedVal b k oV) := by
  rw [deepMerge]
  exact deepMergeGo_get_mem _ _ _ _ _ _ hnd (mem_of_getKey_eq_some _ _ _ hget)

theorem deepMerge_get_none (b o : Obj) (k : String)
    (hget : getKey o k = none) :
    getKey (deepMerge b o).1 k = getKey b k := by
  rw [deepMerge]
  exact deepMergeGo_get_notin _ _ _ _ _ ((getKey_eq_none_iff _ _).1 hget)

theorem deepMerge_keys (b o : Obj) (hnd : (o.map Prod.fst).Nodup) :
    (deepMerge b o).1.map Prod.fst =
      b.map Prod.fst ++
        (o.map Prod.fst).filter (fun k => !(getKey b k).isSome) := by
  rw [deepMerge]
  exact deepMergeGo_keys _ _ _ _ hnd


/-! ### The two deepMerge implementations agree on the merged document -/

theorem deepMergeGoNC_nil (b res : Obj) : deepMergeGoNC b [] res = res := by
  simp [deepMergeGoNC]

theorem deepMergeGoNC_cons (b : Obj) (k : String) (oV : JVal) (rest res : Obj) :
    deepMergeGoNC b ((k, oV) :: rest) res =
      deepMergeGoNC b rest (setKey res k (mergedValNC b k oV)) := by
  by_cases hcase : ∃ of bf, oV = JVal.obj of ∧ getKey b k = some (JVal.obj bf)
  · obtain ⟨of, bf, rfl, hb⟩ := hcase
    rw [deepMergeGoNC.eq_2 b res k rest of bf hb]
    simp [mergedValNC, hb]
  · have hcond : ∀ of bf, oV = JVal.obj of →
        getKey b k = some (JVal.obj bf) → False :=
      fun of bf h1 h2 => hcase ⟨of, bf, h1, h2⟩
    rw [deepMergeGoNC.eq_3 b res k rest oV hcond]
    have hmv : mergedValNC b k oV = oV := by
      unfold mergedValNC
      split
      · rename_i heq
        exact (hcond _ _ rfl heq).elim
      · rfl
    rw [hmv]

theorem deepMergeGo_fst_NC_aux : ∀ (n : Nat) (fields : Obj), sizeOf fields ≤ n →
    ∀ (b res : Obj) (cnt : Nat),
    (deepMergeGo b fields res cnt).1 = deepMergeGoNC b fields res := by
  intro n
  induction n with
  | zero =>
    intro fields hle
    exfalso
    cases fields <;> simp at hle
  | succ n ih =>
    intro fields hle b res cnt
    cases fields with
    | nil => rw [deepMergeGo_nil, deepMergeGoNC_nil]
    | cons p rest =>
      obtain ⟨k, oV⟩ := p
      have hrest : sizeOf rest ≤ n := by
        simp at hle
        omega
      by_cases hcase : ∃ of bf, oV = JVal.obj of ∧ getKey b k = some (JVal.obj bf)
      · obtain ⟨of, bf, rfl, hb⟩ := hcase
        have hof : sizeOf of ≤ n := by
          simp at hle
          omega
        have hm : mergedVal b k (JVal.obj of) = JVal.obj (deepMerge bf of).1 := by
          simp [mergedVal, hb]
        have hmnc : mergedValNC b k (JVal.obj of) =
            JVal.obj (deepMergeNC bf of) := by
          simp [mergedValNC, hb]
        have hrec : (deepMerge bf of).1 = deepMergeNC bf of := by
          rw [deepMerge.eq_1, deepMergeNC.eq_1]
          exact ih of hof bf bf 0
        rw [deepMergeGo_cons, deepMergeGoNC_cons, hm, hmnc, hrec]
        exact ih rest hrest b _ _
      · have hcond : ∀ of bf, oV = JVal.obj of →
            getKey b k = some (JVal.obj bf) → False :=
          fun of bf h1 h2 => hcase ⟨of, bf, h1, h2⟩
        have hm : mergedVal b k oV = oV := by
          unfold mergedVal
          split
          · rename_i heq
            exact (hcond _ _ rfl heq).elim
          · rfl
        have hmnc : mergedValNC b k oV = oV := by
          unfold mergedValNC
          split
          · rename_i heq
            exact (hcond _ _ rfl heq).elim
          · rfl
        rw [deepMergeGo_cons, deepMergeGoNC_cons, hm, hmnc]
        exact ih rest hrest b _ _

/-- C9: the two `deepMerge` implementations are equivalent on the merged
document — for all base and override records, the `.result` component of
the counting `deepMerge` equals the record returned by the non-counting
`deepMerge`. -/
theorem deepMerge_equiv_non_counting (A B : Obj) :
    (deepMerge A B).1 = deepMergeNC A B := by
  rw [deepMerge.eq_1, deepMergeNC.eq_1]
  exact deepMergeGo_fst_NC_aux (sizeOf B) B (Nat.le_refl _) A A 0


/-! ### Merging into an empty base -/

theorem getKey_append_of_none (fs gs : Obj) (k : String)
    (h : getKey fs k = none) : getKey (fs ++ gs) k = getKey gs k := by
  induction fs with
  | nil => simp
  | cons p rest ih =>
    obtain ⟨k0, v0⟩ := p
    rw [getKey_cons] at h
    by_cases h0 : k0 = k
    · simp [h0] at h
    · simp [h0] at h
      rw [List.cons_append, getKey_cons]
      simp [h0, ih h]

theorem mergedVal_nil (k : String) (oV : JVal) : mergedVal [] k oV = oV := by
  cases oV <;> rfl

theorem contrib_nil (k : String) (oV : JVal) : contrib [] (k, oV) = 1 := by
  cases oV <;> rfl

theorem deepMergeGo_empty_base (fields : Obj) : ∀ (res : Obj) (cnt : Nat),
    (fields.map Prod.fst).Nodup →
    (∀ k ∈ fields.map Prod.fst, getKey res k = none) →
    deepMergeGo [] fields res cnt = (res ++ fields, cnt + fields.length) := by
  induction fields with
  | nil =>
    intro res cnt _ _
    simp [deepMergeGo_nil]
  | cons p rest ih =>
    intro res cnt hnd hdisj
    obtain ⟨k, oV⟩ := p
    simp only [List.map_cons, List.nodup_cons] at hnd
    rw [deepMergeGo_cons, mergedVal_nil, contrib_nil,
      setKey_of_getKey_none res k oV (hdisj k (by simp))]
    have hdisj2 : ∀ k2 ∈ rest.map Prod.fst, getKey (res ++ [(k, oV)]) k2 = none := by
      intro k2 hk2
      have hne : k2 ≠ k := by
        intro he
        exact hnd.1 (he ▸ hk2)
      have hne2 : ¬ (k = k2) := fun hh => hne hh.symm
      rw [getKey_append_of_none _ _ _ (hdisj k2 (by simp [hk2])), getKey_cons]
      simp [hne2, getKey]
    rw [ih (res ++ [(k, oV)]) (cnt + 1) hnd.2 hdisj2]
    simp
    omega

/-- C1 amended: merging a record `A` into an empty base returns `A`
together with a change count equal to the number of top-level keys of
`A` — each top-level key counts as one change, however many leaves its
subtree holds. -/
theorem merge_empty_base_counts_top_level_keys (A : Obj)
    (hwf : wfFields A = true) :
    deepMerge [] A = (A, A.length) := by
  rw [deepMerge.eq_1]
  have h := deepMergeGo_empty_base A [] 0 (wfFields_nodup A hwf)
    (fun k _ => rfl)
  simpa using h

theorem merge_empty_base_counts_top_level_keys_witness :
    wfFields [("a", JVal.obj [("b", JVal.num 1)])] = true ∧
    deepMerge [] [("a", JVal.obj [("b", JVal.num 1)])] =
      ([("a", JVal.obj [("b", JVal.num 1)])], 1) := by
  constructor
  · simp [wfFields, wfVal]
  · exact merge_empty_base_counts_top_level_keys _ (by simp [wfFields, wfVal])

/-- C1 counterexample: for the record `A = \x7ba: \x7bb: 1, c: 2\x7d\x7d`,
merging `A` into an empty base yields change count 1, while A's total
key count (`countKeys A`) is 3 and even its count of non-record leaf
keys alone is 2 — under either reading of "total leaf-key count" the
claimed count is wrong. -/
theorem merge_empty_base_leaf_count_refuted :
    (deepMerge []
      [("a", JVal.obj [("b", JVal.num 1), ("c", JVal.num 2)])]).2 = 1 ∧
    countKeys [("a", JVal.obj [("b", JVal.num 1), ("c", JVal.num 2)])] = 3 ∧
    (deepMerge []
        [("a", JVal.obj [("b", JVal.num 1), ("c", JVal.num 2)])]).2 ≠
      countKeys [("a", JVal.obj [("b", JVal.num 1), ("c", JVal.num 2)])] := by
  refine ⟨?_, ?_, ?_⟩
  · simp [deepMerge, deepMergeGo, getKey, setKey, deepEqualU]
  · simp [countKeys]
  · simp [deepMerge, deepMergeGo, getKey, setKey, deepEqualU, countKeys]


/-! ### Kind discipline of deepEqual; wholesale replacement -/

theorem deepEqual_ne_kind (v w : JVal) (h : kindOf v ≠ kindOf w) :
    deepEqual v w = false := by
  cases v <;> cases w <;> first | (exact absurd rfl h) | simp [deepEqual]

theorem isPlainObject_ne_of_deepEqual (v w : JVal)
    (h : isPlainObject v ≠ isPlainObject w) : deepEqual v w = false := by
  cases v <;> cases w <;> first | (exact absurd rfl h) | simp [deepEqual]

theorem deepEqualU_eq_false_of_plain_ne (base : Obj) (k : String) (oV : JVal)
    (hxor : isPlainObject oV ≠ isPlainObjectU (getKey base k)) :
    deepEqualU (getKey base k) oV = false := by
  cases hb : getKey base k with
  | none => rfl
  | some w =>
    rw [hb] at hxor
    simp only [deepEqualU]
    exact isPlainObject_ne_of_deepEqual w oV (fun he => hxor he.symm)

theorem mergedVal_eq_of_not_both (b : Obj) (k : String) (cv : JVal)
    (h : ¬(isPlainObject cv = true ∧ isPlainObjectU (getKey b k) = true)) :
    mergedVal b k cv = cv := by
  unfold mergedVal
  split
  · rename_i heq
    exact (h ⟨rfl, by rw [heq]; rfl⟩).elim
  · rfl

theorem contrib_eq_one_of_plain_ne (base : Obj) (k : String) (oV : JVal)
    (hxor : isPlainObject oV ≠ isPlainObjectU (getKey base k)) :
    contrib base (k, oV) = 1 := by
  unfold contrib
  split
  · rename_i hov heq
    exfalso
    apply hxor
    rw [show oV = _ from hov, show getKey base k = _ from heq]
    rfl
  · simp [deepEqualU_eq_false_of_plain_ne base k oV hxor]

/-- C2: when exactly one of base[k] and override[k] is a mergeable record
(an absent base value counting as non-record), no recursion occurs: the
override value replaces the base value wholesale in the merged record and
contributes exactly one change, whatever the size of either subtree; the
total change count is the sum of the per-key contributions. -/
theorem one_sided_record_wholesale_one_change
    (base override : Obj) (k : String) (oV : JVal)
    (hwf : wfFields override = true)
    (hget : getKey override k = some oV)
    (hxor : isPlainObject oV ≠ isPlainObjectU (getKey base k)) :
    contrib base (k, oV) = 1 ∧
    getKey (deepMerge base override).1 k = some oV ∧
    (deepMerge base override).2 = (override.map (contrib base)).sum := by
  have hnot : ¬(isPlainObject oV = true ∧
      isPlainObjectU (getKey base k) = true) :=
    fun hh => hxor (hh.1.trans hh.2.symm)
  refine ⟨contrib_eq_one_of_plain_ne base k oV hxor, ?_,
    deepMerge_cnt base override⟩
  rw [deepMerge_get_some base override k oV (wfFields_nodup _ hwf) hget,
    mergedVal_eq_of_not_both base k oV hnot]

theorem one_sided_record_wholesale_one_change_witness :
    contrib [("k", JVal.num 1)] ("k", JVal.obj [("x", JVal.num 2)]) = 1 ∧
    getKey (deepMerge [("k", JVal.num 1)]
        [("k", JVal.obj [("x", JVal.num 2)])]).1 "k" =
      some (JVal.obj [("x", JVal.num 2)]) ∧
    (deepMerge [("k", JVal.num 1)] [("k", JVal.obj [("x", JVal.num 2)])]).2 =
      ([("k", JVal.obj [("x", JVal.num 2)])].map
        (contrib [("k", JVal.num 1)])).sum :=
  one_sided_record_wholesale_one_change
    [("k", JVal.num 1)] [("k", JVal.obj [("x", JVal.num 2)])]
    "k" (JVal.obj [("x", JVal.num 2)])
    (by simp [wfFields, wfVal])
    (by simp [getKey])
    (by simp [isPlainObject, isPlainObjectU, getKey])

/-- C4 amended: in merge(merge(A,B).record, C), a key present in both B
and C resolves to C's value whenever C's value and the intermediate
merged value at that key are not both mergeable records; in the remaining
both-record case the two records are merged recursively rather than
replaced by C's value outright. -/
theorem three_way_fold_key_resolves_to_C
    (A B C : Obj) (k : String) (bv cv : JVal)
    (hwfC : wfFields C = true)
    (_hB : getKey B k = some bv)
    (hC : getKey C k = some cv)
    (hnot : ¬(isPlainObject cv = true ∧
      isPlainObjectU (getKey (deepMerge A B).1 k) = true)) :
    getKey (deepMerge (deepMerge A B).1 C).1 k = some cv := by
  rw [deepMerge_get_some _ C k cv (wfFields_nodup _ hwfC) hC,
    mergedVal_eq_of_not_both _ k cv hnot]

theorem three_way_fold_key_resolves_to_C_witness :
    getKey (deepMerge (deepMerge [] [("k", JVal.num 1)]).1
        [("k", JVal.num 2)]).1 "k" = some (JVal.num 2) :=
  three_way_fold_key_resolves_to_C [] [("k", JVal.num 1)] [("k", JVal.num 2)]
    "k" (JVal.num 1) (JVal.num 2)
    (by simp [wfFields, wfVal])
    (by simp [getKey])
    (by simp [getKey])
    (by simp [isPlainObject])

/-- C4 counterexample: with A empty, B = \x7bk: \x7bx: 1\x7d\x7d and
C = \x7bk: \x7by: 2\x7d\x7d, the key k is present in both B and C, yet
merge(merge(A,B).record, C) carries \x7bx: 1, y: 2\x7d at k — the recursive
merge of the two records — not C's value \x7by: 2\x7d. -/
theorem three_way_fold_key_not_C_value :
    getKey (deepMerge (deepMerge [] [("k", JVal.obj [("x", JVal.num 1)])]).1
        [("k", JVal.obj [("y", JVal.num 2)])]).1 "k" =
      some (JVal.obj [("x", JVal.num 1), ("y", JVal.num 2)]) ∧
    getKey [("k", JVal.obj [("y", JVal.num 2)])] "k" =
      some (JVal.obj [("y", JVal.num 2)]) ∧
    JVal.obj [("x", JVal.num 1), ("y", JVal.num 2)] ≠
      JVal.obj [("y", JVal.num 2)] := by
  refine ⟨?_, by simp [getKey], by simp⟩
  simp [deepMerge, deepMergeGo, getKey, setKey, deepEqualU]

/-- C8: the structural classifier `isPlainObject` returns true on a JSON
value exactly when it is a key-value mapping, and returns false on every
sequence, scalar and null. -/
theorem isPlainObject_iff_mergeable_record (v : JVal) :
    (isPlainObject v = true ↔ ∃ fs : Obj, v = JVal.obj fs) ∧
    (∀ xs : List JVal, isPlainObject (JVal.arr xs) = false) ∧
    isPlainObject JVal.null = false ∧
    (∀ b : Bool, isPlainObject (JVal.bool b) = false) ∧
    (∀ i : Int, isPlainObject (JVal.num i) = false) ∧
    (∀ t : String, isPlainObject (JVal.str t) = false) := by
  refine ⟨?_, fun _ => rfl, rfl, fun _ => rfl, fun _ => rfl, fun _ => rfl⟩
  cases v <;> simp [isPlainObject]


/-! ### Structure of deepEqual -/

theorem sizeOf_getKey_lt (fs : Obj) (k : String) (v : JVal)
    (h : getKey fs k = some v) : sizeOf v < sizeOf fs := by
  have h1 := List.sizeOf_lt_of_mem (mem_of_getKey_eq_some fs k v h)
  have h2 : sizeOf (k, v) = 1 + sizeOf k + sizeOf v := rfl
  omega

theorem deepEqualAt_iff (f2 l : Obj) :
    deepEqualAt f2 l = true ↔
      ∀ p ∈ l, ∃ w, getKey f2 p.1 = some w ∧ deepEqual p.2 w = true := by
  induction l with
  | nil => simp [deepEqualAt]
  | cons p rest ih =>
    obtain ⟨k, v⟩ := p
    cases hg : getKey f2 k with
    | none => simp [deepEqualAt, hg, List.forall_mem_cons]
    | some w => simp [deepEqualAt, hg, List.forall_mem_cons, ih]

theorem deepEqualList_iff (xs ys : List JVal) :
    deepEqualList xs ys = true ↔
      xs.length = ys.length ∧
      ∀ (i : Nat) (h1 : i < xs.length) (h2 : i < ys.length),
        deepEqual (xs.get ⟨i, h1⟩) (ys.get ⟨i, h2⟩) = true := by
  induction xs generalizing ys with
  | nil => cases ys <;> simp [deepEqualList]
  | cons x xs ih =>
    cases ys with
    | nil => simp [deepEqualList]
    | cons y ys =>
      have hstep : deepEqualList (x :: xs) (y :: ys) =
          (deepEqual x y && deepEqualList xs ys) := by
        simp [deepEqualList]
      rw [hstep, Bool.and_eq_true, ih]
      constructor
      · rintro ⟨hxy, hlen, hidx⟩
        refine ⟨by simp [hlen], ?_⟩
        intro i h1 h2
        cases i with
        | zero => simpa using hxy
        | succ j =>
          simpa using hidx j (by simpa using h1) (by simpa using h2)
      · rintro ⟨hlen, hidx⟩
        refine ⟨by simpa using hidx 0 (by simp) (by simp),
          by simpa using hlen, ?_⟩
        intro j h1 h2
        simpa using hidx (j + 1) (by simpa using h1) (by simpa using h2)

theorem keys_perm_of_getKey_isSome (f1 f2 : Obj)
    (hnd1 : (f1.map Prod.fst).Nodup) (hnd2 : (f2.map Prod.fst).Nodup)
    (h : ∀ k, (getKey f1 k).isSome ↔ (getKey f2 k).isSome) :
    (f1.map Prod.fst).Perm (f2.map Prod.fst) := by
  rw [List.perm_ext_iff_of_nodup hnd1 hnd2]
  intro k
  rw [← getKey_isSome_iff, ← getKey_isSome_iff]
  exact h k

theorem keys_subset_perm (f1 f2 : Obj)
    (hnd1 : (f1.map Prod.fst).Nodup)
    (hlen : f1.length = f2.length)
    (hsub : ∀ k ∈ f1.map Prod.fst, k ∈ f2.map Prod.fst) :
    (f1.map Prod.fst).Perm (f2.map Prod.fst) := by
  have hsp := List.subperm_of_subset hnd1 hsub
  exact hsp.perm_of_length_le (by simp [hlen])

theorem deepEqual_obj_iff (f1 f2 : Obj)
    (hnd1 : (f1.map Prod.fst).Nodup) (hnd2 : (f2.map Prod.fst).Nodup) :
    deepEqual (JVal.obj f1) (JVal.obj f2) = true ↔
      (∀ k, (getKey f1 k).isSome ↔ (getKey f2 k).isSome) ∧
      (∀ k v w, getKey f1 k = some v → getKey f2 k = some w →
        deepEqual v w = true) := by
  have hstep : deepEqual (JVal.obj f1) (JVal.obj f2) =
      ((f1.length == f2.length) && deepEqualAt f2 f1) := by
    simp [deepEqual]
  rw [hstep, Bool.and_eq_true, beq_iff_eq, deepEqualAt_iff]
  constructor
  · rintro ⟨hlen, hat⟩
    have hsub : ∀ k ∈ f1.map Prod.fst, k ∈ f2.map Prod.fst := by
      intro k hk
      obtain ⟨v, hv⟩ := Option.isSome_iff_exists.1
        ((getKey_isSome_iff f1 k).2 hk)
      obtain ⟨w, hw, _⟩ := hat (k, v) (mem_of_getKey_eq_some f1 k v hv)
      exact (getKey_isSome_iff f2 k).1 (by simp [hw])
    have hperm := keys_subset_perm f1 f2 hnd1 hlen hsub
    constructor
    · intro k
      rw [getKey_isSome_iff, getKey_isSome_iff]
      exact hperm.mem_iff
    · intro k v w hv hw
      obtain ⟨w2, hw2, hde⟩ := hat (k, v) (mem_of_getKey_eq_some f1 k v hv)
      rw [hw] at hw2
      cases hw2
      exact hde
  · rintro ⟨hiff, hvals⟩
    have hperm := keys_perm_of_getKey_isSome f1 f2 hnd1 hnd2 hiff
    constructor
    · have hl := hperm.length_eq
      simpa using hl
    · intro p hmem
      obtain ⟨k, v⟩ := p
      have hv : getKey f1 k = some v :=
        getKey_eq_some_of_mem_nodup f1 k v hnd1 hmem
      have hs : (getKey f2 k).isSome := (hiff k).1 (by simp [hv])
      obtain ⟨w, hw⟩ := Option.isSome_iff_exists.1 hs
      exact ⟨w, hw, hvals k v w hv hw⟩


/-! ### Reflexivity and symmetry of deepEqual on well-formed values -/

theorem deepEqual_refl_aux : ∀ n : Nat,
    (∀ v, sizeOf v ≤ n → wfVal v = true → deepEqual v v = true) ∧
    (∀ xs, sizeOf xs ≤ n → wfList xs = true →
      deepEqualList xs xs = true) ∧
    (∀ (f2 fs : Obj), sizeOf fs ≤ n →
      (∀ p ∈ fs, wfVal p.2 = true) →
      (∀ p ∈ fs, getKey f2 p.1 = some p.2) →
      deepEqualAt f2 fs = true) := by
  intro n
  induction n with
  | zero =>
    refine ⟨fun v hle _ => ?_, fun xs hle _ => ?_, fun f2 fs hle _ _ => ?_⟩
    · exfalso
      cases v <;> simp at hle
    · exfalso
      cases xs <;> simp at hle
    · exfalso
      cases fs <;> simp at hle
  | succ n ih =>
    obtain ⟨ihv, ihl, ihf⟩ := ih
    refine ⟨?_, ?_, ?_⟩
    · intro v hle hwf
      cases v with
      | null => simp [deepEqual]
      | bool b => simp [deepEqual]
      | num i => simp [deepEqual]
      | str t => simp [deepEqual]
      | arr xs =>
        have h1 : sizeOf xs ≤ n := by
          simp at hle
          omega
        have hw : wfList xs = true := by simpa [wfVal] using hwf
        have h2 := ihl xs h1 hw
        simp [deepEqual, h2]
      | obj fs =>
        have h1 : sizeOf fs ≤ n := by
          simp at hle
          omega
        have hw : wfFields fs = true := by simpa [wfVal] using hwf
        have hval : ∀ p ∈ fs, wfVal p.2 = true := by
          intro p hp
          exact wfFields_value fs p.1 p.2 hw (by simpa using hp)
        have hget : ∀ p ∈ fs, getKey fs p.1 = some p.2 := by
          intro p hp
          exact getKey_eq_some_of_mem_nodup fs p.1 p.2 (wfFields_nodup fs hw)
            (by simpa using hp)
        have h2 := ihf fs fs h1 hval hget
        simp [deepEqual, h2]
    · intro xs hle hwf
      cases xs with
      | nil => simp [deepEqualList]
      | cons x rest =>
        have h1 : sizeOf x ≤ n := by
          simp at hle
          omega
        have h2 : sizeOf rest ≤ n := by
          simp at hle
          omega
        rw [show wfList (x :: rest) = (wfVal x && wfList rest) from by
          simp [wfList], Bool.and_eq_true] at hwf
        have hx := ihv x h1 hwf.1
        have hr := ihl rest h2 hwf.2
        simp [deepEqualList, hx, hr]
    · intro f2 fs hle hval hget
      cases fs with
      | nil => simp [deepEqualAt]
      | cons p rest =>
        obtain ⟨k, v⟩ := p
        have h1 : sizeOf v ≤ n := by
          simp at hle
          omega
        have h2 : sizeOf rest ≤ n := by
          simp at hle
          omega
        have hx := ihv v h1 (hval (k, v) (List.mem_cons_self _ _))
        have hgk := hget (k, v) (List.mem_cons_self _ _)
        have hr := ihf f2 rest h2
          (fun q hq => hval q (List.mem_cons_of_mem _ hq))
          (fun q hq => hget q (List.mem_cons_of_mem _ hq))
        simp [deepEqualAt, hgk, hx, hr]

theorem deepEqual_refl (v : JVal) (hwf : wfVal v = true) :
    deepEqual v v = true :=
  (deepEqual_refl_aux (sizeOf v)).1 v (Nat.le_refl _) hwf

theorem deepEqual_symm_aux : ∀ n : Nat,
    (∀ v w, sizeOf v + sizeOf w ≤ n → wfVal v = true → wfVal w = true →
      deepEqual v w = true → deepEqual w v = true) ∧
    (∀ xs ys, sizeOf xs + sizeOf ys ≤ n → wfList xs = true →
      wfList ys = true → deepEqualList xs ys = true →
      deepEqualList ys xs = true) := by
  intro n
  induction n with
  | zero =>
    refine ⟨fun v w hle _ _ _ => ?_, fun xs ys hle _ _ _ => ?_⟩
    · exfalso
      cases v <;> simp at hle
    · exfalso
      cases xs <;> simp at hle
  | succ n ih =>
    obtain ⟨ihv, ihl⟩ := ih
    constructor
    · intro v w hle hwv hww hde
      cases v with
      | null => cases w <;> first | exact hde | simp [deepEqual] at hde
      | bool a =>
        cases w <;> try simp [deepEqual] at hde
        simp [deepEqual, hde]
      | num a =>
        cases w <;> try simp [deepEqual] at hde
        simp [deepEqual, hde]
      | str a =>
        cases w <;> try simp [deepEqual] at hde
        simp [deepEqual, hde]
      | arr xs =>
        cases w with
        | arr ys =>
          have hxy : deepEqualList xs ys = true := by
            simpa [deepEqual] using hde
          have h1 : sizeOf xs + sizeOf ys ≤ n := by
            simp at hle
            omega
          have h2 := ihl xs ys h1 (by simpa [wfVal] using hwv)
            (by simpa [wfVal] using hww) hxy
          simp [deepEqual, h2]
        | _ => simp [deepEqual] at hde
      | obj f1 =>
        cases w with
        | obj f2 =>
          have hnd1 := wfFields_nodup f1 (by simpa [wfVal] using hwv)
          have hnd2 := wfFields_nodup f2 (by simpa [wfVal] using hww)
          rw [deepEqual_obj_iff f1 f2 hnd1 hnd2] at hde
          rw [deepEqual_obj_iff f2 f1 hnd2 hnd1]
          obtain ⟨hiff, hvals⟩ := hde
          refine ⟨fun k => (hiff k).symm, ?_⟩
          intro k v w hv hw
          have hsv := sizeOf_getKey_lt f2 k v hv
          have hsw := sizeOf_getKey_lt f1 k w hw
          have hbound : sizeOf w + sizeOf v ≤ n := by
            simp at hle
            omega
          exact ihv w v hbound
            (wfFields_getKey f1 k w (by simpa [wfVal] using hwv) hw)
            (wfFields_getKey f2 k v (by simpa [wfVal] using hww) hv)
            (hvals k w v hw hv)
        | _ => simp [deepEqual] at hde
    · intro xs ys hle hwx hwy hde
      cases xs with
      | nil =>
        cases ys with
        | nil => exact hde
        | cons y ys => simp [deepEqualList] at hde
      | cons x xs =>
        cases ys with
        | nil => simp [deepEqualList] at hde
        | cons y ys =>
          rw [show deepEqualList (x :: xs) (y :: ys) =
              (deepEqual x y && deepEqualList xs ys) from by
            simp [deepEqualList], Bool.and_eq_true] at hde
          rw [show wfList (x :: xs) = (wfVal x && wfList xs) from by
            simp [wfList], Bool.and_eq_true] at hwx
          rw [show wfList (y :: ys) = (wfVal y && wfList ys) from by
            simp [wfList], Bool.and_eq_true] at hwy
          have h1 : sizeOf x + sizeOf y ≤ n := by
            simp at hle
            omega
          have h2 : sizeOf xs + sizeOf ys ≤ n := by
            simp at hle
            omega
          have hx := ihv x y h1 hwx.1 hwy.1 hde.1
          have hr := ihl xs ys h2 hwx.2 hwy.2 hde.2
          simp [deepEqualList, hx, hr]

theorem deepEqual_symm (v w : JVal) (hwv : wfVal v = true)
    (hww : wfVal w = true) (h : deepEqual v w = true) :
    deepEqual w v = true :=
  (deepEqual_symm_aux (sizeOf v + sizeOf w)).1 v w (Nat.le_refl _) hwv hww h


/-! ### Self-merge and idempotence -/

theorem isPlainObject_eq_true_iff (v : JVal) :
    isPlainObject v = true ↔ ∃ fs : Obj, v = JVal.obj fs := by
  cases v <;> simp [isPlainObject]

theorem isPlainObjectU_eq_true_iff (o : Option JVal) :
    isPlainObjectU o = true ↔ ∃ fs : Obj, o = some (JVal.obj fs) := by
  cases o with
  | none => simp [isPlainObjectU]
  | some w => cases w <;> simp [isPlainObjectU, isPlainObject]

theorem isPlainObject_eq_false_of_no_obj (v : JVal)
    (h : ¬∃ fs : Obj, v = JVal.obj fs) : isPlainObject v = false := by
  rw [Bool.eq_false_iff]
  intro h1
  exact h ((isPlainObject_eq_true_iff v).1 h1)

theorem contrib_of_non_record (b : Obj) (k : String) (v : JVal)
    (hobj : isPlainObject v = false) :
    contrib b (k, v) = if deepEqualU (getKey b k) v = true then 0 else 1 := by
  unfold contrib
  split
  · rename_i hov heq
    rw [show v = _ from hov] at hobj
    simp [isPlainObject] at hobj
  · rfl

theorem deepMerge_self_aux : ∀ n : Nat, ∀ X : Obj, sizeOf X ≤ n →
    wfFields X = true → deepMerge X X = (X, 0) := by
  intro n
  induction n with
  | zero =>
    intro X hle _
    exfalso
    cases X <;> simp at hle
  | succ n ih =>
    intro X hle hwf
    have hnd := wfFields_nodup X hwf
    have hmain : ∀ p ∈ X, mergedVal X p.1 p.2 = p.2 ∧ contrib X p = 0 := by
      intro p hp
      obtain ⟨k, v⟩ := p
      have hg : getKey X k = some v := getKey_eq_some_of_mem_nodup X k v hnd hp
      have hwv : wfVal v = true := wfFields_value X k v hwf hp
      by_cases hobj : ∃ of : Obj, v = JVal.obj of
      · obtain ⟨of, rfl⟩ := hobj
        have hsz : sizeOf of ≤ n := by
          have h1 := List.sizeOf_lt_of_mem hp
          simp at h1
          omega
        have hwof : wfFields of = true := by simpa [wfVal] using hwv
        have hm := ih of hsz hwof
        constructor
        · simp [mergedVal, hg, hm]
        · simp [contrib, hg, hm]
      · have hr : deepEqual v v = true := deepEqual_refl v hwv
        have hpf : isPlainObject v = false :=
          isPlainObject_eq_false_of_no_obj v hobj
        have hnb : ¬(isPlainObject v = true ∧
            isPlainObjectU (getKey X k) = true) := by
          rintro ⟨h1, _⟩
          rw [hpf] at h1
          exact Bool.false_ne_true h1
        constructor
        · exact mergedVal_eq_of_not_both X k v hnb
        · rw [contrib_of_non_record X k v hpf]
          simp [deepEqualU, hg, hr]
    have hres : (deepMerge X X).1 = X := by
      rw [deepMerge.eq_1]
      refine deepMergeGo_id X X X 0 (fun p hp => ?_)
      rw [(hmain p hp).1]
      exact getKey_eq_some_of_mem_nodup X p.1 p.2 hnd hp
    have hcnt : (deepMerge X X).2 = 0 := by
      rw [deepMerge_cnt]
      apply List.sum_eq_zero
      intro x hx
      obtain ⟨p, hp, rfl⟩ := List.mem_map.1 hx
      exact (hmain p hp).2
    exact Prod.ext_iff.2 ⟨hres, hcnt⟩

theorem deepMerge_self (X : Obj) (hwf : wfFields X = true) :
    deepMerge X X = (X, 0) :=
  deepMerge_self_aux (sizeOf X) X (Nat.le_refl _) hwf

theorem deepMerge_idem_aux : ∀ n : Nat, ∀ B : Obj, sizeOf B ≤ n →
    wfFields B = true → ∀ A : Obj,
    deepMerge (deepMerge A B).1 B = ((deepMerge A B).1, 0) := by
  intro n
  induction n with
  | zero =>
    intro B hle
    exfalso
    cases B <;> simp at hle
  | succ n ih =>
    intro B hle hwf A
    have hndB := wfFields_nodup B hwf
    have hMget : ∀ p ∈ B,
        getKey (deepMerge A B).1 p.1 = some (mergedVal A p.1 p.2) :=
      fun p hp => deepMerge_get_some A B p.1 p.2 hndB
        (getKey_eq_some_of_mem_nodup B p.1 p.2 hndB hp)
    have hmain : ∀ p ∈ B,
        mergedVal (deepMerge A B).1 p.1 p.2 = mergedVal A p.1 p.2 ∧
        contrib (deepMerge A B).1 p = 0 := by
      intro p hp
      obtain ⟨k, oV⟩ := p
      have hwv : wfVal oV = true := wfFields_value B k oV hwf hp
      have hM : getKey (deepMerge A B).1 k = some (mergedVal A k oV) :=
        hMget (k, oV) hp
      by_cases hobj : ∃ of : Obj, oV = JVal.obj of
      · obtain ⟨of, rfl⟩ := hobj
        have hsz : sizeOf of ≤ n := by
          have h1 := List.sizeOf_lt_of_mem hp
          simp at h1
          omega
        have hwof : wfFields of = true := by simpa [wfVal] using hwv
        by_cases hb : ∃ bf : Obj, getKey A k = some (JVal.obj bf)
        · obtain ⟨bf, hbf⟩ := hb
          have hmvA : mergedVal A k (JVal.obj of) =
              JVal.obj (deepMerge bf of).1 := by
            simp [mergedVal, hbf]
          have hrec := ih of hsz hwof bf
          rw [hmvA] at hM
          constructor
          · rw [hmvA]
            simp only [mergedVal, hM]
            rw [show deepMerge (deepMerge bf of).1 of =
              ((deepMerge bf of).1, 0) from hrec]
          · simp only [contrib, hM]
            rw [show deepMerge (deepMerge bf of).1 of =
              ((deepMerge bf of).1, 0) from hrec]
        · have hnb : ¬(isPlainObject (JVal.obj of) = true ∧
              isPlainObjectU (getKey A k) = true) := by
            rintro ⟨_, h2⟩
            exact hb ((isPlainObjectU_eq_true_iff _).1 h2)
          have hmvA : mergedVal A k (JVal.obj of) = JVal.obj of :=
            mergedVal_eq_of_not_both A k (JVal.obj of) hnb
          rw [hmvA] at hM
          have hself := deepMerge_self of hwof
          constructor
          · rw [hmvA]
            simp [mergedVal, hM, hself]
          · simp [contrib, hM, hself]
      · have hnbA : ¬(isPlainObject oV = true ∧
            isPlainObjectU (getKey A k) = true) := by
          rintro ⟨h1, _⟩
          exact hobj ((isPlainObject_eq_true_iff _).1 h1)
        have hmvA : mergedVal A k oV = oV :=
          mergedVal_eq_of_not_both A k oV hnbA
        rw [hmvA] at hM
        have hnbM : ¬(isPlainObject oV = true ∧
            isPlainObjectU (getKey (deepMerge A B).1 k) = true) := by
          rintro ⟨h1, _⟩
          exact hobj ((isPlainObject_eq_true_iff _).1 h1)
        have hr : deepEqual oV oV = true := deepEqual_refl oV hwv
        have hpf : isPlainObject oV = false :=
          isPlainObject_eq_false_of_no_obj oV hobj
        constructor
        · rw [hmvA]
          exact mergedVal_eq_of_not_both _ k oV hnbM
        · rw [contrib_of_non_record _ k oV hpf]
          simp [deepEqualU, hM, hr]
    have hres : (deepMerge (deepMerge A B).1 B).1 = (deepMerge A B).1 := by
      rw [deepMerge.eq_1]
      refine deepMergeGo_id _ B _ 0 (fun p hp => ?_)
      rw [(hmain p hp).1]
      exact hMget p hp
    have hcnt : (deepMerge (deepMerge A B).1 B).2 = 0 := by
      rw [deepMerge_cnt]
      apply List.sum_eq_zero
      intro x hx
      obtain ⟨p, hp, rfl⟩ := List.mem_map.1 hx
      exact (hmain p hp).2
    exact Prod.ext_iff.2 ⟨hres, hcnt⟩

/-- C3: merging is idempotent in its second argument: re-applying the
same override record to an already-merged record returns that record
unchanged, with change count 0. -/
theorem deepMerge_idempotent (A B : Obj) (hwfB : wfFields B = true) :
    deepMerge (deepMerge A B).1 B = ((deepMerge A B).1, 0) :=
  deepMerge_idem_aux (sizeOf B) B (Nat.le_refl _) hwfB A

theorem deepMerge_idempotent_witness :
    deepMerge (deepMerge [("a", JVal.num 1)]
        [("a", JVal.num 2), ("b", JVal.obj [("c", JVal.num 3)])]).1
      [("a", JVal.num 2), ("b", JVal.obj [("c", JVal.num 3)])] =
      ((deepMerge [("a", JVal.num 1)]
        [("a", JVal.num 2), ("b", JVal.obj [("c", JVal.num 3)])]).1, 0) :=
  deepMerge_idempotent [("a", JVal.num 1)]
    [("a", JVal.num 2), ("b", JVal.obj [("c", JVal.num 3)])]
    (by simp [wfFields, wfVal])

/-- C5: characterization of `deepEqual` on well-formed JSON values: two
sequences are deep-equal iff they have the same length and are pairwise
deep-equal in order; two records are deep-equal iff they have the same
set of keys (order-irrelevant) and pairwise deep-equal values under each
shared key; values of differing kind are never deep-equal. -/
theorem deepEqual_characterization :
    (∀ xs ys : List JVal,
      deepEqual (JVal.arr xs) (JVal.arr ys) = true ↔
        xs.length = ys.length ∧
        ∀ (i : Nat) (h1 : i < xs.length) (h2 : i < ys.length),
          deepEqual (xs.get ⟨i, h1⟩) (ys.get ⟨i, h2⟩) = true) ∧
    (∀ f1 f2 : Obj,
      wfVal (JVal.obj f1) = true → wfVal (JVal.obj f2) = true →
      (deepEqual (JVal.obj f1) (JVal.obj f2) = true ↔
        (∀ k, (getKey f1 k).isSome ↔ (getKey f2 k).isSome) ∧
        (∀ k v w, getKey f1 k = some v → getKey f2 k = some w →
          deepEqual v w = true))) ∧
    (∀ v w : JVal, kindOf v ≠ kindOf w → deepEqual v w = false) := by
  refine ⟨?_, ?_, deepEqual_ne_kind⟩
  · intro xs ys
    rw [show deepEqual (JVal.arr xs) (JVal.arr ys) = deepEqualList xs ys
      from by simp [deepEqual]]
    exact deepEqualList_iff xs ys
  · intro f1 f2 h1 h2
    exact deepEqual_obj_iff f1 f2
      (wfFields_nodup f1 (by simpa [wfVal] using h1))
      (wfFields_nodup f2 (by simpa [wfVal] using h2))

theorem deepEqual_characterization_witness :
    deepEqual (JVal.obj [("a", JVal.num 1)])
        (JVal.obj [("a", JVal.num 1)]) = true ↔
      (∀ k, (getKey [("a", JVal.num 1)] k).isSome ↔
        (getKey [("a", JVal.num 1)] k).isSome) ∧
      (∀ k v w, getKey [("a", JVal.num 1)] k = some v →
        getKey [("a", JVal.num 1)] k = some w → deepEqual v w = true) :=
  deepEqual_characterization.2.1 [("a", JVal.num 1)] [("a", JVal.num 1)]
    (by simp [wfVal, wfFields]) (by simp [wfVal, wfFields])


/-! ### Zero change count exactly when the base is unchanged -/

theorem contrib_of_not_both (b : Obj) (k : String) (v : JVal)
    (h : ∀ of bf : Obj, v = JVal.obj of →
      getKey b k = some (JVal.obj bf) → False) :
    contrib b (k, v) = if deepEqualU (getKey b k) v = true then 0 else 1 := by
  unfold contrib
  split
  · rename_i hov heq
    exact (h _ _ (show v = _ from hov) heq).elim
  · rfl

theorem map_sum_zero_mem (l : Obj) (f : String × JVal → Nat)
    (h : (l.map f).sum = 0) : ∀ p ∈ l, f p = 0 := by
  induction l with
  | nil => simp
  | cons q rest ih =>
    simp only [List.map_cons, List.sum_cons] at h
    intro p hp
    rcases List.mem_cons.1 hp with rfl | hp2
    · omega
    · exact ih (by omega) p hp2

theorem deepMerge_keys_nodup (A B : Obj)
    (hndA : (A.map Prod.fst).Nodup) (hndB : (B.map Prod.fst).Nodup) :
    ((deepMerge A B).1.map Prod.fst).Nodup := by
  rw [deepMerge_keys A B hndB]
  refine List.Nodup.append hndA (List.Nodup.filter _ hndB) ?_
  intro a haA haF
  have h1 := (List.mem_filter.1 haF).2
  simp at h1
  exact (getKey_eq_none_iff A a).1 h1 haA

theorem count_zero_iff_aux : ∀ n : Nat, ∀ B : Obj, sizeOf B ≤ n →
    wfFields B = true → ∀ A : Obj, wfFields A = true →
    ((deepMerge A B).2 = 0 ↔
      deepEqual (JVal.obj (deepMerge A B).1) (JVal.obj A) = true) := by
  intro n
  induction n with
  | zero =>
    intro B hle
    exfalso
    cases B <;> simp at hle
  | succ n ih =>
    intro B hle hwfB A hwfA
    have hndA := wfFields_nodup A hwfA
    have hndB := wfFields_nodup B hwfB
    have hndM := deepMerge_keys_nodup A B hndA hndB
    have hkey : ∀ k oV w, (k, oV) ∈ B → getKey A k = some w →
        (contrib A (k, oV) = 0 ↔
          deepEqual (mergedVal A k oV) w = true) := by
      intro k oV w hp hw
      have hwoV : wfVal oV = true := wfFields_value B k oV hwfB hp
      have hww : wfVal w = true := wfFields_getKey A k w hwfA hw
      by_cases hboth : ∃ of bf : Obj,
          oV = JVal.obj of ∧ getKey A k = some (JVal.obj bf)
      · obtain ⟨of, bf, rfl, hbf⟩ := hboth
        have hwbf : w = JVal.obj bf := by
          rw [hw] at hbf
          injection hbf
        subst hwbf
        have hsz : sizeOf of ≤ n := by
          have h1 := List.sizeOf_lt_of_mem hp
          simp at h1
          omega
        have hwof : wfFields of = true := by simpa [wfVal] using hwoV
        have hwbf2 : wfFields bf = true := by simpa [wfVal] using hww
        have hiH := ih of hsz hwof bf hwbf2
        rw [show contrib A (k, JVal.obj of) = (deepMerge bf of).2 from by
            simp [contrib, hw],
          show mergedVal A k (JVal.obj of) = JVal.obj (deepMerge bf of).1
            from by simp [mergedVal, hw]]
        exact hiH
      · have hcond : ∀ of bf : Obj, oV = JVal.obj of →
            getKey A k = some (JVal.obj bf) → False :=
          fun of bf h1 h2 => hboth ⟨of, bf, h1, h2⟩
        have hnb : ¬(isPlainObject oV = true ∧
            isPlainObjectU (getKey A k) = true) := by
          rintro ⟨h1, h2⟩
          obtain ⟨of, rfl⟩ := (isPlainObject_eq_true_iff oV).1 h1
          obtain ⟨bf, hbf⟩ := (isPlainObjectU_eq_true_iff _).1 h2
          exact hcond of bf rfl hbf
        rw [mergedVal_eq_of_not_both A k oV hnb,
          contrib_of_not_both A k oV hcond, hw]
        constructor
        · intro h0
          have hc : deepEqual w oV = true := by
            by_contra hc2
            simp [deepEqualU, hc2] at h0
          exact deepEqual_symm w oV hww hwoV hc
        · intro h1
          have hc : deepEqual w oV = true := deepEqual_symm oV w hwoV hww h1
          simp [deepEqualU, hc]
    constructor
    · intro h0
      have hall := map_sum_zero_mem B (contrib A)
        (by rw [← deepMerge_cnt]; exact h0)
      have hBsub : ∀ p ∈ B, ∃ w, getKey A p.1 = some w := by
        intro p hp
        cases hA : getKey A p.1 with
        | some w => exact ⟨w, rfl⟩
        | none =>
          exfalso
          have h1 : contrib A p = 1 := by
            obtain ⟨k, oV⟩ := p
            rw [contrib_of_not_both A k oV (fun of bf h1 h2 => by
              rw [show getKey A k = none from hA] at h2
              exact Option.noConfusion h2)]
            simp [deepEqualU, show getKey A k = none from hA]
          rw [hall p hp] at h1
          exact Nat.zero_ne_one h1
      have hfilter : (B.map Prod.fst).filter
          (fun k => !(getKey A k).isSome) = [] := by
        rw [List.filter_eq_nil_iff]
        intro a ha
        obtain ⟨p, hp, rfl⟩ := List.mem_map.1 ha
        obtain ⟨w, hw⟩ := hBsub p hp
        simp [hw]
      apply (deepEqual_obj_iff (deepMerge A B).1 A hndM hndA).2
      constructor
      · intro k
        rw [getKey_isSome_iff, getKey_isSome_iff,
          deepMerge_keys A B hndB, hfilter, List.append_nil]
      · intro k v w hv hw
        by_cases hBk : ∃ oV, getKey B k = some oV
        · obtain ⟨oV, hoV⟩ := hBk
          have hMk := deepMerge_get_some A B k oV hndB hoV
          rw [hv] at hMk
          injection hMk with hMk2
          rw [hMk2]
          exact (hkey k oV w (mem_of_getKey_eq_some B k oV hoV) hw).1
            (hall (k, oV) (mem_of_getKey_eq_some B k oV hoV))
        · have hnone : getKey B k = none := by
            cases hB2 : getKey B k with
            | none => rfl
            | some z => exact (hBk ⟨z, hB2⟩).elim
          have hMA := deepMerge_get_none A B k hnone
          rw [hv, hw] at hMA
          injection hMA with hMA2
          rw [hMA2]
          exact deepEqual_refl w (wfFields_getKey A k w hwfA hw)
    · intro hde
      obtain ⟨hiff, hvals⟩ :=
        (deepEqual_obj_iff (deepMerge A B).1 A hndM hndA).1 hde
      have hBsub : ∀ p ∈ B, ∃ w, getKey A p.1 = some w := by
        intro p hp
        cases hA : getKey A p.1 with
        | some w => exact ⟨w, rfl⟩
        | none =>
          exfalso
          have hMmem : p.1 ∈ (deepMerge A B).1.map Prod.fst := by
            rw [deepMerge_keys A B hndB]
            refine List.mem_append_right _ (List.mem_filter.2 ?_)
            exact ⟨List.mem_map.2 ⟨p, hp, rfl⟩, by simp [hA]⟩
          have h1 : (getKey (deepMerge A B).1 p.1).isSome :=
            (getKey_isSome_iff _ p.1).2 hMmem
          have h2 := (hiff p.1).1 h1
          rw [hA] at h2
          simp at h2
      have hall : ∀ p ∈ B, contrib A p = 0 := by
        intro p hp
        obtain ⟨k, oV⟩ := p
        obtain ⟨w, hw⟩ := hBsub (k, oV) hp
        have hMk := deepMerge_get_some A B k oV hndB
          (getKey_eq_some_of_mem_nodup B k oV hndB hp)
        exact (hkey k oV w hp hw).2 (hvals k (mergedVal A k oV) w hMk hw)
      rw [deepMerge_cnt]
      apply List.sum_eq_zero
      intro x hx
      obtain ⟨p, hp, rfl⟩ := List.mem_map.1 hx
      exact hall p hp

/-- C10: for well-formed records A and B, the change count of
merge(A, B) is zero exactly when the merged record is deep-equal to A:
a merge reports no changes iff it leaves the base value unchanged. -/
theorem merge_count_zero_iff_unchanged (A B : Obj)
    (hwfA : wfFields A = true) (hwfB : wfFields B = true) :
    (deepMerge A B).2 = 0 ↔
      deepEqual (JVal.obj (deepMerge A B).1) (JVal.obj A) = true :=
  count_zero_iff_aux (sizeOf B) B (Nat.le_refl _) hwfB A hwfA

theorem merge_count_zero_iff_unchanged_witness :
    (deepMerge [("a", JVal.num 1)] [("a", JVal.num 1)]).2 = 0 ↔
      deepEqual (JVal.obj (deepMerge [("a", JVal.num 1)]
          [("a", JVal.num 1)]).1)
        (JVal.obj [("a", JVal.num 1)]) = true :=
  merge_count_zero_iff_unchanged [("a", JVal.num 1)] [("a", JVal.num 1)]
    (by simp [wfFields, wfVal]) (by simp [wfFields, wfVal])


/-! ### Multi-document fold: parse failures abort everything -/

theorem mergeLoop_error : ∀ (pre : List (String × Except String Obj))
    (merged : Obj) (stats : List (String × Nat)) (p e : String)
    (post : List (String × Except String Obj)),
    (∀ q ∈ pre, ∃ o : Obj, q.2 = Except.ok o) →
    mergeLoop merged stats (pre ++ ((p, Except.error e) :: post)) =
      (Except.error ("Invalid JSON in override config (" ++ p ++ "): " ++ e),
        pre.map Prod.fst ++ [p]) := by
  intro pre
  induction pre with
  | nil =>
    intro merged stats p e post _
    simp [mergeLoop]
  | cons q rest ih =>
    intro merged stats p e post hpre
    obtain ⟨qp, qv⟩ := q
    obtain ⟨o, ho⟩ := hpre (qp, qv) (List.mem_cons_self _ _)
    rw [show qv = _ from ho]
    rw [List.cons_append]
    rw [show mergeLoop merged stats
        ((qp, Except.ok o) :: (rest ++ ((p, Except.error e) :: post))) =
      ((mergeLoop (deepMerge merged o).1
          (stats ++ [(qp, (deepMerge merged o).2)])
          (rest ++ ((p, Except.error e) :: post))).1,
        qp :: (mergeLoop (deepMerge merged o).1
          (stats ++ [(qp, (deepMerge merged o).2)])
          (rest ++ ((p, Except.error e) :: post))).2) from by
      simp [mergeLoop]]
    rw [ih _ _ p e post
      (fun q2 hq2 => hpre q2 (List.mem_cons_of_mem _ hq2))]
    simp

theorem mergeConfigs_ok_def (basePath : String) (baseObj : Obj)
    (overrides : List (String × Except String Obj))
    (write : Bool) (outputPath : String) :
    mergeConfigs basePath (Except.ok baseObj) overrides write outputPath =
      match mergeLoop baseObj [] overrides with
      | (Except.error e, rds) =>
          { result := Except.error ("mergeConfigs failed: " ++ e)
            reads := basePath :: rds
            writes := [] }
      | (Except.ok (merged, _stats), rds) =>
          { result := Except.ok merged
            reads := basePath :: rds
            writes := if write then [(outputPath, merged)] else [] } := rfl

/-- C6: if any override source fails to parse as a valid Document, the
multi-document fold surfaces an error naming the offending source and the
underlying parse failure, reads (hence applies) no subsequent override,
writes no output file, and returns no partial merge result. -/
theorem mergeConfigs_override_parse_failure
    (basePath : String) (baseObj : Obj)
    (pre : List (String × Except String Obj)) (p e : String)
    (post : List (String × Except String Obj))
    (write : Bool) (outputPath : String)
    (hpre : ∀ q ∈ pre, ∃ o : Obj, q.2 = Except.ok o) :
    (mergeConfigs basePath (Except.ok baseObj)
        (pre ++ ((p, Except.error e) :: post)) write outputPath).result =
      Except.error ("mergeConfigs failed: " ++
        ("Invalid JSON in override config (" ++ p ++ "): " ++ e)) ∧
    (mergeConfigs basePath (Except.ok baseObj)
        (pre ++ ((p, Except.error e) :: post)) write outputPath).writes =
      [] ∧
    (mergeConfigs basePath (Except.ok baseObj)
        (pre ++ ((p, Except.error e) :: post)) write outputPath).reads =
      basePath :: (pre.map Prod.fst ++ [p]) := by
  have h := mergeLoop_error pre baseObj [] p e post hpre
  rw [mergeConfigs_ok_def, h]
  exact ⟨rfl, rfl, rfl⟩

theorem mergeConfigs_override_parse_failure_witness :
    (mergeConfigs "base.json" (Except.ok [])
        (([("o1.json", Except.ok [("a", JVal.num 1)])] :
            List (String × Except String Obj)) ++
          (("bad.json", (Except.error "Unexpected token" :
              Except String Obj)) ::
            [("o3.json", Except.ok [("b", JVal.num 2)])]))
        true "mergedOutput.json").result =
      Except.error ("mergeConfigs failed: " ++
        ("Invalid JSON in override config (" ++ "bad.json" ++ "): " ++
          "Unexpected token")) ∧
    (mergeConfigs "base.json" (Except.ok [])
        (([("o1.json", Except.ok [("a", JVal.num 1)])] :
            List (String × Except String Obj)) ++
          (("bad.json", (Except.error "Unexpected token" :
              Except String Obj)) ::
            [("o3.json", Except.ok [("b", JVal.num 2)])]))
        true "mergedOutput.json").writes = [] ∧
    (mergeConfigs "base.json" (Except.ok [])
        (([("o1.json", Except.ok [("a", JVal.num 1)])] :
            List (String × Except String Obj)) ++
          (("bad.json", (Except.error "Unexpected token" :
              Except String Obj)) ::
            [("o3.json", Except.ok [("b", JVal.num 2)])]))
        true "mergedOutput.json").reads =
      "base.json" :: (([("o1.json", Except.ok [("a", JVal.num 1)])] :
          List (String × Except String Obj)).map
        Prod.fst ++ ["bad.json"]) :=
  mergeConfigs_override_parse_failure "base.json" []
    [("o1.json", Except.ok [("a", JVal.num 1)])] "bad.json"
    "Unexpected token" [("o3.json", Except.ok [("b", JVal.num 2)])]
    true "mergedOutput.json"
    (by
      intro q hq
      simp at hq
      rw [hq]
      exact ⟨[("a", JVal.num 1)], rfl⟩)

end DCM
